import Mathlib

/-!
Verification of the podcast-generator audio pipeline
(`src/podcast_generation_app.py`) against its specification.

The Python source is shallowly embedded: pure fragments become Lean
functions over `String`/`List Char`; calls to external services (HTTP,
ffmpeg, the filesystem) are modelled by explicit outcome parameters so
that each function is a total, executable Lean definition.  Characters
are ASCII throughout (the regex classes `[A-Za-z]` and `\s` are embedded
at their ASCII meaning).
-/

namespace Podcast

/-- ASCII letter, the regex class `[A-Za-z]`. -/
def isAsciiAlpha (c : Char) : Bool :=
  ('A' ≤ c && c ≤ 'Z') || ('a' ≤ c && c ≤ 'z')

/-- Python whitespace as matched by `\s` and stripped by `str.strip()`
(ASCII part): space, tab, newline, carriage return, vertical tab, form feed. -/
def isPySpace (c : Char) : Bool :=
  c == ' ' || c == '\t' || c == '\n' || c == '\r' || c == '\x0b' || c == '\x0c'

/-- The regex class `[A-Za-z\s]` used inside the label group. -/
def isLabelChar (c : Char) : Bool :=
  isAsciiAlpha c || isPySpace c

/-- Drop trailing characters satisfying `p` (helper for `str.strip()`). -/
def dropTrailing (p : Char → Bool) (l : List Char) : List Char :=
  (l.reverse.dropWhile p).reverse

/-- Python `str.strip()` on the underlying character list. -/
def pyStripChars (l : List Char) : List Char :=
  dropTrailing isPySpace (l.dropWhile isPySpace)

/-- Python `str.strip()`. -/
def pyStrip (s : String) : String :=
  String.mk (pyStripChars s.data)

/-- Python `s.strip().split()[0].lower()`: the lower-cased first
whitespace-separated token of the stripped string.  Returns `none` when the
stripped string is empty, where Python raises `IndexError` (`[][0]`). -/
def firstKeyOpt (s : String) : Option String :=
  match (pyStripChars s.data).takeWhile (fun c => !isPySpace c) with
  | [] => none
  | c :: cs => some (String.mk ((c :: cs).map Char.toLower))

/-! ## Dialogue extraction

Embedding of `re.findall(r"^([A-Za-z][A-Za-z\s]+?):\s*([^\n]+)", script,
re.MULTILINE)` (source line 157).  The fixed pattern is compiled by hand
into a backtracking matcher with exactly Python's semantics:

* `^` (MULTILINE) anchors a match attempt to the start of the string or the
  position right after a `'\n'`;
* the label group is one ASCII letter followed by a *lazy* `[A-Za-z\s]+?`
  (at least one more character, extended only while the remainder of the
  pattern fails);
* after the `':'`, a greedy `\s*` is followed by a greedy `[^\n]+`
  (at least one non-newline character), with backtracking of `\s*`;
* `findall` scans left to right, resuming after each match.
-/

/-- Attempt `([^\n]+)` at offset `n` of `l` (after `\s*` consumed `n`
characters).  On success returns the captured text and the rest of the
input. -/
def tailFrom (l : List Char) (n : Nat) : Option (List Char × List Char) :=
  match l.drop n with
  | [] => none
  | c :: rest =>
    if c == '\n' then none
    else some ((c :: rest).takeWhile (fun x => x != '\n'),
               (c :: rest).dropWhile (fun x => x != '\n'))

/-- Backtracking for `\s*([^\n]+)`: try the offsets `n, n-1, …, 0` in that
order (greedy `\s*` gives characters back one at a time). -/
def findTail (l : List Char) : Nat → Option (List Char × List Char)
  | 0 => tailFrom l 0
  | n + 1 =>
    match tailFrom l (n + 1) with
    | some r => some r
    | none => findTail l n

/-- Match `\s*([^\n]+)` on `l`: `\s*` first consumes the maximal whitespace
prefix, backtracking as needed. -/
def matchTail (l : List Char) : Option (List Char × List Char) :=
  findTail l (l.takeWhile isPySpace).length

/-- Match `[A-Za-z\s]+?:\s*([^\n]+)` (lazy quantifier already holding the
characters `acc`): consume at least one more class character, then require
`':'` and the tail; on tail failure extend the lazy group by one character.
Returns (label characters after the first, text, rest). -/
def tryLabel (acc : List Char) : List Char → Option (List Char × List Char × List Char)
  | [] => none
  | c :: rest =>
    if isLabelChar c then
      match rest with
      | d :: rest2 =>
        if d == ':' then
          match matchTail rest2 with
          | some (text, after) => some (acc ++ [c], text, after)
          | none => tryLabel (acc ++ [c]) rest
        else tryLabel (acc ++ [c]) rest
      | [] => none
    else none

/-- Attempt the whole pattern at the current position (which the caller
guarantees is a line start).  Returns (label, text, rest of the input). -/
def matchAt : List Char → Option (List Char × List Char × List Char)
  | [] => none
  | c :: rest =>
    if isAsciiAlpha c then
      match tryLabel [] rest with
      | some (lab, text, after) => some (c :: lab, text, after)
      | none => none
    else none

/-- `findall` scan.  `atStart` records whether the current position is a
line start; `fuel` bounds the recursion (each step consumes at least one
character, so `fuel = length` suffices, see `scanAux_fuel`). -/
def scanAux : Nat → List Char → Bool → List (List Char × List Char)
  | 0, _, _ => []
  | _ + 1, [], _ => []
  | fuel + 1, c :: rest, atStart =>
    if atStart then
      match matchAt (c :: rest) with
      | some (lab, text, after) => (lab, text) :: scanAux fuel after false
      | none => scanAux fuel rest (c == '\n')
    else scanAux fuel rest (c == '\n')

/-- The dialogue extractor: all matches of
`^([A-Za-z][A-Za-z\s]+?):\s*([^\n]+)` (MULTILINE) in order
(source line 157). -/
def dialogueExtract (script : String) : List (String × String) :=
  (scanAux script.data.length script.data true).map
    (fun p => (String.mk p.1, String.mk p.2))

/-! ## Clip filenames and numeric sorting -/

/-- Decimal digits of `n`, least significant first; the first argument is
recursion fuel (`n` itself is always enough). -/
def natDigitsAux : Nat → Nat → List Char
  | 0, _ => []
  | _ + 1, 0 => []
  | fuel + 1, n => Nat.digitChar (n % 10) :: natDigitsAux fuel (n / 10)

/-- Decimal digits of `n`, most significant first (empty for `0`). -/
def natDigitsMSD (n : Nat) : List Char :=
  (natDigitsAux n n).reverse

/-- Python `f"{n:03d}"` for a natural number: decimal digits left-padded
with `'0'` to a minimum width of 3. -/
def pad3 (n : Nat) : List Char :=
  List.replicate (3 - (natDigitsMSD n).length) '0' ++ natDigitsMSD n

/-- The per-line artifact name `f"{idx + 1:03d}_{speaker.strip()}.mp3"`
(source line 177); `idx` is the 0-based position of the line in the
extracted dialogue. -/
def mkFilename (idx : Nat) (speaker : String) : String :=
  String.mk (pad3 (idx + 1)) ++ "_" ++ pyStrip speaker ++ ".mp3"

/-- Python `int(...)` on a string of decimal digits (the only use in the
source applies it to the zero-padded numeric prefix of a clip name). -/
def pyInt (cs : List Char) : Nat :=
  cs.foldl (fun a c => 10 * a + (c.toNat - 48)) 0

/-- The sort key `int(x.split("_")[0])` of source line 231: the characters
before the first `'_'`, read as a decimal number. -/
def sortKeyFn (f : String) : Nat :=
  pyInt (f.data.takeWhile (fun c => c != '_'))

/-- Stable insertion of `x` into a list sorted by the key `k` (goes before
the first element of strictly larger key, hence after equal keys already
present — Python's stable sort order). -/
def insertByKey (k : String → Nat) (x : String) : List String → List String
  | [] => [x]
  | y :: ys => if k x ≤ k y then x :: y :: ys else y :: insertByKey k x ys

/-- Python `sorted(l, key=k)`: a stable sort by `k`. -/
def pySorted (k : String → Nat) : List String → List String
  | [] => []
  | x :: xs => insertByKey k x (pySorted k xs)

/-! ## Voice assignment (`assign_voices_to_characters`, source lines 87-107) -/

/-- `MALE_VOICES` (source lines 25-29). -/
def MALE_VOICES : List String :=
  ["iP95p4xoKVk53GoZ742B", "wViXBPUzp2ZZixB1xQuM", "TxGEqnHWrfWFTfGW9XjX"]

/-- `FEMALE_VOICES` (source lines 31-35). -/
def FEMALE_VOICES : List String :=
  ["XcXEQzuLXRU9RcfWzEJt", "ADd2WEtjmwokqUr0Y5Ad", "AZnzlk1XvdvUeBnXmlld"]

/-- A speaker as consumed by the voice assigner: the two dict fields the
function reads (`char["name"]`, `char["gender"]`); the remaining fields of
the character dict feed only the prompt text. -/
structure PChar where
  name : String
  gender : String
deriving DecidableEq, Repr

/-- Pool selected from a gender string:
`MALE_VOICES if gender == "male" else FEMALE_VOICES`. -/
def poolOfG (g : String) : List String :=
  if g == "male" then MALE_VOICES else FEMALE_VOICES

/-- The pool the source selects for a character. -/
def poolOf (ch : PChar) : List String :=
  poolOfG ch.gender

/-- Membership test `v in used_voices` on the used-voices set (kept as a
list). -/
def memB (v : String) (l : List String) : Bool :=
  l.any (fun x => x == v)

/-- Python dict assignment `m[k] = v`: update the value in place when the
key is present, append otherwise (insertion order preserved). -/
def dictInsert (k v : String) : List (String × String) → List (String × String)
  | [] => [(k, v)]
  | (k', v') :: rest =>
    if k' == k then (k, v) :: rest else (k', v') :: dictInsert k v rest

/-- Python `m.get(k)`. -/
def dictLookup (k : String) : List (String × String) → Option String
  | [] => none
  | (k', v') :: rest => if k' == k then some v' else dictLookup k rest

/-- The assignment strings `f"{char['name']} → Voice ID: {chosen_voice}"`
(source line 105). -/
def mkAssignStr (name voice : String) : String :=
  name ++ " → Voice ID: " ++ voice

/-- The loop of `assign_voices_to_characters`.  `pick` stands for
`random.choice` (any function returning an element of a non-empty list).
Accumulators: the voice mapping dict, the `used_voices` set (as a list),
the assignment strings, and a trace of `(gender, chosen_voice)` per
character — the trace is verification instrumentation; the source returns
only the first and third components.  The result is `none` when a
character name strips to the empty string, where Python raises
`IndexError` on `split()[0]`. -/
def assignGo (pick : List String → String) :
    List PChar → List (String × String) → List String → List String →
    List (String × String) →
    Option (List (String × String) × List String × List (String × String))
  | [], mapAcc, _, assignAcc, traceAcc => some (mapAcc, assignAcc, traceAcc)
  | ch :: rest, mapAcc, used, assignAcc, traceAcc =>
    match firstKeyOpt ch.name with
    | none => none
    | some key =>
      let pool := poolOf ch
      let avail := pool.filter (fun v => !memB v used)
      if avail.isEmpty then
        let chosen := pick pool
        assignGo pick rest (dictInsert key chosen mapAcc) used
          (assignAcc ++ [mkAssignStr ch.name chosen])
          (traceAcc ++ [(ch.gender, chosen)])
      else
        let chosen := pick avail
        assignGo pick rest (dictInsert key chosen mapAcc) (chosen :: used)
          (assignAcc ++ [mkAssignStr ch.name chosen])
          (traceAcc ++ [(ch.gender, chosen)])

/-- `assign_voices_to_characters` (source lines 87-107), parametrised by
the random choice function.  Returns the voice mapping, the assignment
strings, and the instrumentation trace of chosen voices. -/
def assign_voices_to_characters (pick : List String → String) (chars : List PChar) :
    Option (List (String × String) × List String × List (String × String)) :=
  assignGo pick chars [] [] [] []

/-! ## Speech synthesis stage (`extract_and_generate_audio`, lines 151-215) -/

/-- One ElevenLabs call outcome: a raised exception, or an HTTP response
with a status code and a body (the audio bytes, as a string). -/
inductive SynthResp
  | err
  | resp (status : Nat) (content : String)
deriving DecidableEq, Repr

/-- The success test of source line 197:
`response.status_code == 200 and response.content`. -/
def respOk : SynthResp → Bool
  | .err => false
  | .resp s c => s == 200 && c != ""

/-- The retry loop of source lines 179-206 unrolled: `for attempt in
range(3)` breaking on the first success; the line's audio is written iff
some attempt among the first three succeeds. -/
def synthLine (attempt : Nat → SynthResp) : Bool :=
  respOk (attempt 0) || respOk (attempt 1) || respOk (attempt 2)

/-- The voice used for a dialogue line:
`voice_mapping.get(speaker.strip().split()[0].lower())` (source lines
171-172).  The `none` arm of the key is unreachable for labels produced by
`dialogueExtract`, which always begin with a letter
(`firstKeyOpt_of_extract` below). -/
def stageVoice (mapping : List (String × String)) (speaker : String) : Option String :=
  match firstKeyOpt speaker with
  | none => none
  | some k => dictLookup k mapping

/-- Whether line `idx` produces an artifact: a voice id must be assigned
(and be truthy — Python skips a `None` or empty voice, source line 173)
and some synthesis attempt must succeed. -/
def stageKeep (mapping : List (String × String)) (oracle : Nat → Nat → SynthResp)
    (idx : Nat) (speaker : String) : Bool :=
  match stageVoice mapping speaker with
  | none => false
  | some v => v != "" && synthLine (oracle idx)

/-- The generation loop `for idx, (speaker, line) in enumerate(lines)`
(source lines 166-206), collecting `generated_files` in order. -/
def stageFilesFrom (mapping : List (String × String)) (oracle : Nat → Nat → SynthResp) :
    Nat → List (String × String) → List String
  | _, [] => []
  | i, (sp, _) :: rest =>
    if stageKeep mapping oracle i sp then
      mkFilename i sp :: stageFilesFrom mapping oracle (i + 1) rest
    else
      stageFilesFrom mapping oracle (i + 1) rest

/-- Result of the synthesis stage.  The source returns `False` both for an
empty extraction (message "No dialogue lines found in script!") and for
zero generated clips ("No audio files were generated!"); the constructor
records which message was emitted. -/
inductive StageResult
  | emptyScript
  | noAudioGenerated
  | ok
deriving DecidableEq, Repr

/-- `extract_and_generate_audio` (source lines 151-215), parametrised by
the per-line, per-attempt synthesis outcome `oracle`.  Returns the stage
result together with the `generated_files` list (the observable artifact
writes). -/
def extract_and_generate_audio (script : String) (mapping : List (String × String))
    (oracle : Nat → Nat → SynthResp) : StageResult × List String :=
  let lines := dialogueExtract script
  if lines.isEmpty then (.emptyScript, [])
  else
    let files := stageFilesFrom mapping oracle 0 lines
    if files.isEmpty then (.noAudioGenerated, []) else (.ok, files)

/-! ## Audio assembly (`combine_audio_clips_ffmpeg`, source lines 218-284) -/

/-- `f.endswith(".mp3")`. -/
def endsWithMp3 (f : String) : Bool :=
  f.data.reverse.take 4 == ['3', 'p', 'm', '.']

/-- The eligible clip list of source lines 228-231: every `.mp3` file in
the working directory other than `final_podcast.mp3`, sorted by the parsed
numeric prefix `int(x.split("_")[0])`. -/
def eligibleClips (listing : List String) : List String :=
  pySorted sortKeyFn
    (listing.filter (fun f => endsWithMp3 f && f != "final_podcast.mp3"))

/-- The two external tool invocations the assembler can make. -/
inductive Tool
  | concat
  | metadata
deriving DecidableEq, Repr

/-- Failure conditions of the assembler (each reported through
`st.error`): empty clip list, non-zero concat exit status, missing concat
output, and the `os.replace` exception when the metadata-stamped file was
never written. -/
inductive CombineErr
  | noClips
  | ffmpegFailed
  | outputMissing
  | replaceError
deriving DecidableEq, Repr

/-- State of `final_podcast.mp3` when the assembler returns. -/
inductive FinalArtifact
  | absent
  | unstamped
  | stamped
deriving DecidableEq, Repr

/-- Environment of one assembler run: the initial directory listing and
the behaviour of the two ffmpeg invocations (exit status of the concat
run, whether each run actually wrote its output file). -/
structure CombineEnv where
  listing : List String
  concatRet : Nat
  concatWrites : Bool
  metaWrites : Bool
deriving DecidableEq, Repr

/-- Observable outcome of one assembler run. -/
structure CombineOut where
  ok : Bool
  err : Option CombineErr
  calls : List Tool
  finalFile : FinalArtifact
deriving DecidableEq, Repr

/-- `combine_audio_clips_ffmpeg` (source lines 218-284).  The source text
of lines 231-235 is syntactically corrupted in the snapshot (an unclosed
`sorted(` call); the empty-list early return is Modelled from the spec:
"Fail with NoClipsToAssemble if the list is empty", before any manifest
write or tool invocation.  The remaining steps follow the source: concat
via ffmpeg (fatal on non-zero exit or missing output), a metadata run
whose exit status is *not* checked, then `os.replace` of the stamped file
over the final artifact — which raises, is caught, and returns `False`
when the stamped file does not exist, leaving the un-stamped final
artifact in place. -/
def combine_audio_clips_ffmpeg (env : CombineEnv) : CombineOut :=
  let mp3s := eligibleClips env.listing
  if mp3s.isEmpty then
    { ok := false, err := some .noClips, calls := [], finalFile := .absent }
  else if env.concatRet != 0 then
    { ok := false, err := some .ffmpegFailed, calls := [.concat],
      finalFile := if env.concatWrites then .unstamped else .absent }
  else if !env.concatWrites then
    { ok := false, err := some .outputMissing, calls := [.concat],
      finalFile := .absent }
  else if env.metaWrites then
    { ok := true, err := none, calls := [.concat, .metadata],
      finalFile := .stamped }
  else
    { ok := false, err := some .replaceError, calls := [.concat, .metadata],
      finalFile := .unstamped }

/-! ## Podbean token exchange (`get_podbean_access_token`, lines 302-332) -/

/-- Outcome of the token-endpoint POST: a transport-level exception raised
by `requests.post`, or a response with a status code and an optional
`access_token` field in its JSON body. -/
inductive TokenHttp
  | netErr
  | resp (status : Nat) (accessToken : Option String)
deriving DecidableEq, Repr

/-- What the token exchange does: return a value, or escape with an
uncaught exception. -/
inductive TokenOut
  | crash
  | ret (token : Option String)
deriving DecidableEq, Repr

/-- `get_podbean_access_token` (source lines 302-332).
`response.raise_for_status()` raises `HTTPError` exactly for statuses
≥ 400; the handler catches it, and `if response:` is `False` for an error
response, so the function returns `None`.  When `requests.post` itself
raises, the handler's `if response:` reads the never-assigned local
`response` and raises `UnboundLocalError`, which nothing catches: the
function crashes instead of returning. -/
def get_podbean_access_token : TokenHttp → TokenOut
  | .netErr => .crash
  | .resp s tok => if 400 ≤ s then .ret none else .ret tok

/-! ## Podbean upload (`upload_to_podbean`, source lines 335-367) -/

/-- Outcome of the upload attempt: the `open`/`requests.post` block raised
before a request went out, the request itself failed at transport level,
or an HTTP response with a status and body arrived. -/
inductive UploadHttp
  | openErr
  | netErr
  | resp (status : Nat) (body : String)
deriving DecidableEq, Repr

/-- Python's `f"{x}"` on an optional string: `None` renders as `"None"`. -/
def pyStrOpt : Option String → String
  | none => "None"
  | some s => s

/-- Observable outcome of one upload call: the returned boolean, the
`Authorization` header of the request if one was sent, and the message
passed to `st.error` on failure. -/
structure UploadOut where
  ok : Bool
  request : Option String
  errMsg : Option String
deriving DecidableEq, Repr

/-- The upload failure message of source line 363. -/
def mkUploadErr (status : Nat) (body : String) : String :=
  "Podbean upload failed (Status " ++ String.mk (natDigitsMSD status) ++ "): " ++ body

/-- `upload_to_podbean` (source lines 335-367).  `tokenKey` models
`st.session_state`: `none` when the key `"podbean_access_token"` is absent
(the only case the guard of line 337 refuses), `some tok` when the key is
present with value `tok` (`main` initialises it to `None`, i.e.
`some none`, before any authentication).  Success requires status exactly
200 (line 360); any other response fails with a message carrying the
body, with no retry. -/
def upload_to_podbean (tokenKey : Option (Option String)) (outcome : UploadHttp) :
    UploadOut :=
  match tokenKey with
  | none =>
    { ok := false, request := none, errMsg := some "Not authenticated with Podbean!" }
  | some tok =>
    match outcome with
    | .openErr => { ok := false, request := none, errMsg := some "Error uploading to Podbean" }
    | .netErr =>
      { ok := false, request := some ("Bearer " ++ pyStrOpt tok),
        errMsg := some "Error uploading to Podbean" }
    | .resp s body =>
      if s == 200 then
        { ok := true, request := some ("Bearer " ++ pyStrOpt tok), errMsg := none }
      else
        { ok := false, request := some ("Bearer " ++ pyStrOpt tok),
          errMsg := some (mkUploadErr s body) }

/-! ## Auxiliary notions used by the statements -/

/-- Number of characters whose selected pool is `P`. -/
def countPool (P : List String) (chars : List PChar) : Nat :=
  (chars.filter (fun ch => poolOf ch == P)).length

/-- Number of voices of the pool `P` not yet in `used`. -/
def availLen (P : List String) (used : List String) : Nat :=
  (P.filter (fun v => !memB v used)).length

/-- The voices chosen (in order) for the characters whose pool is `P`,
read off the instrumentation trace. -/
def chosenForPool (P : List String) (t : List (String × String)) : List String :=
  (t.filter (fun e => poolOfG e.1 == P)).map Prod.snd

/-- First-defined alternative of two optional values. -/
def optOr (a b : Option String) : Option String :=
  match a with
  | some v => some v
  | none => b

/-- The voice the mapping records for the key `k` after processing
`chars` with trace `t`: the voice chosen for the *last* character whose
first-name key is `k`. -/
def lastWrite (k : String) (chars : List PChar) (t : List (String × String)) :
    Option String :=
  ((chars.zip t).filterMap
    (fun p => if firstKeyOpt p.1.name = some k then some p.2.2 else none)).getLast?

/-- Rendering of one well-formed dialogue line as `"Label: text\n"`. -/
def renderPair (p : String × String) : List Char :=
  p.1.data ++ ':' :: ' ' :: p.2.data ++ ['\n']

/-- Rendering of a list of dialogue lines as a script. -/
def renderScript : List (String × String) → List Char
  | [] => []
  | p :: ps => renderPair p ++ renderScript ps

/-- A (label, text) pair the extractor is able to recover exactly: the
label is an ASCII letter followed by at least one more letter or space,
and the text is non-empty, newline-free and does not start with
whitespace. -/
def wellFormedPair (p : String × String) : Bool :=
  (match p.1.data with
   | c :: d :: cs => isAsciiAlpha c && (d :: cs).all (fun x => isAsciiAlpha x || x == ' ')
   | _ => false) &&
  (match p.2.data with
   | t :: _ => !isPySpace t && p.2.data.all (fun x => x != '\n')
   | [] => false)

/-- A deterministic stand-in for `random.choice` used by concrete
witnesses: the head of the list. -/
def pickHead (l : List String) : String :=
  l.headD ""

/-- Concrete synthesis-stage input for the C1 witness: two dialogue
lines, both with assigned voices. -/
def exScript : String := "Alex: Hi\nJamie: Yo\n"

/-- Voice mapping for the C1 witness. -/
def exMapping : List (String × String) := [("alex", "v1"), ("jamie", "v2")]

/-- Attempt outcomes for the C1 witness: every attempt for line 0 fails,
the first attempt for line 1 succeeds. -/
def exOracle : Nat → Nat → SynthResp :=
  fun i a => if i == 1 && a == 0 then SynthResp.resp 200 "audio" else SynthResp.err

/-- Concrete speakers for the C4 witness: two males and one female, all
with usable names. -/
def exChars : List PChar :=
  [⟨"Alex", "male"⟩, ⟨"Bob", "male"⟩, ⟨"Carol", "female"⟩]

/-- Concrete speakers for the C9 witness: two males whose names share the
first-name key `alex`. -/
def dupChars : List PChar :=
  [⟨"Alex Smith", "male"⟩, ⟨"alex Jones", "male"⟩]

lemma pickHead_mem : ∀ l : List String, l ≠ [] → pickHead l ∈ l := by
  intro l h
  cases l with
  | nil => exact absurd rfl h
  | cons a as => simp [pickHead]

/-! ## C8: token exchange -/

/-- C8.  The claim says a network-level failure of the token exchange
yields the AuthExchangeFailed condition and the function returns no
token.  The code is wrong there: when `requests.post` raises, the
`except` handler evaluates `if response:` with `response` never assigned,
so the function escapes with an uncaught `UnboundLocalError` instead of
returning.  This theorem evaluates the embedded function at the failing
input. -/
theorem c8_token_exchange_crashes_on_network_failure :
    get_podbean_access_token TokenHttp.netErr = TokenOut.crash := rfl

/-! ## C6: upload status handling -/

/-- C6 counterexample.  The claim says any 2xx response is treated as
success; a 201 response is 2xx, yet the upload returns failure (the code
tests `status_code == 200` exactly). -/
theorem c6_counterexample :
    (upload_to_podbean (some (some "tok")) (UploadHttp.resp 201 "created")).ok = false :=
  rfl

/-- C6 (amended).  With the session key present, a response is treated as
success exactly when its status is 200; every response with any other
status (2xx included) yields a failure message carrying the response
body, and no retry is made (a single request per call, by the shape of
`upload_to_podbean`). -/
theorem c6_upload_success_iff_status_200 :
    ∀ (tok : Option String) (s : Nat) (body : String),
      (upload_to_podbean (some tok) (UploadHttp.resp 200 body)).ok = true ∧
      (s ≠ 200 →
        upload_to_podbean (some tok) (UploadHttp.resp s body) =
          { ok := false, request := some ("Bearer " ++ pyStrOpt tok),
            errMsg := some (mkUploadErr s body) }) := by
  intro tok s body
  constructor
  · rfl
  · intro hs
    have hbe : (s == 200) = false := by
      simp [hs]
    simp [upload_to_podbean, hbe]

/-- C6 witness: the amended theorem applied at status 201. -/
theorem c6_upload_success_iff_status_200_witness :
    (201 ≠ 200) ∧
      upload_to_podbean (some (some "tok")) (UploadHttp.resp 201 "created") =
        { ok := false, request := some "Bearer tok",
          errMsg := some (mkUploadErr 201 "created") } :=
  ⟨by decide, (c6_upload_success_iff_status_200 (some "tok") 201 "created").2 (by decide)⟩

/-! ## C7: upload without a token -/

/-- C7 counterexample.  `main` initialises the session key
`podbean_access_token` to `None` before any authentication, so a call
made with no token ever obtained finds the key *present*: the guard
`"podbean_access_token" not in st.session_state` does not fire, the
request is sent with the header `Bearer None`, and a 200 response even
reports success — the upload is not refused. -/
theorem c7_counterexample :
    upload_to_podbean (some none) (UploadHttp.resp 200 "ok") =
      { ok := true, request := some "Bearer None", errMsg := none } :=
  rfl

/-- C7 (amended).  The upload is refused with no request sent exactly
when the session-state key is absent; with the key present but holding
`None` (the state `main` initialises before authentication), the upload
proceeds and sends the request with the authorization header
`Bearer None`. -/
theorem c7_upload_refused_iff_key_absent :
    (∀ o : UploadHttp,
      upload_to_podbean none o =
        { ok := false, request := none,
          errMsg := some "Not authenticated with Podbean!" }) ∧
    (∀ (s : Nat) (body : String),
      (upload_to_podbean (some none) (UploadHttp.resp s body)).request =
        some "Bearer None") := by
  constructor
  · intro o
    rfl
  · intro s body
    by_cases h : (s == 200) = true <;> simp [upload_to_podbean, pyStrOpt, h]

/-! ## C2: assembler with zero eligible clips -/

/-- C2.  With zero eligible per-line artifacts (no `.mp3` other than
`final_podcast.mp3`) the assembler fails with the NoClipsToAssemble
condition and invokes no external tool. -/
theorem c2_no_clips_no_tool_invocation :
    ∀ env : CombineEnv, eligibleClips env.listing = [] →
      combine_audio_clips_ffmpeg env =
        { ok := false, err := some CombineErr.noClips, calls := [],
          finalFile := FinalArtifact.absent } := by
  intro env h
  simp [combine_audio_clips_ffmpeg, h]

/-- C2 witness: a directory holding only the previous final artifact and
the manifest. -/
theorem c2_no_clips_no_tool_invocation_witness :
    eligibleClips ["final_podcast.mp3", "files.txt"] = [] ∧
      combine_audio_clips_ffmpeg ⟨["final_podcast.mp3", "files.txt"], 0, false, false⟩ =
        { ok := false, err := some CombineErr.noClips, calls := [],
          finalFile := FinalArtifact.absent } :=
  ⟨by decide, c2_no_clips_no_tool_invocation _ (by decide)⟩

/-! ## C3: metadata stamping never destroys the final artifact -/

/-- C3.  The final artifact ends up replaced by the stamped version only
when the metadata run actually wrote the stamped file; and whenever the
concatenation produced a valid final artifact but the stamped temporary
was not written, the run fails through the `os.replace` exception with
the un-stamped final artifact preserved. -/
theorem c3_stamp_failure_preserves_final :
    ∀ env : CombineEnv,
      ((combine_audio_clips_ffmpeg env).finalFile = FinalArtifact.stamped →
        env.metaWrites = true) ∧
      (eligibleClips env.listing ≠ [] → env.concatRet = 0 → env.concatWrites = true →
        env.metaWrites = false →
        combine_audio_clips_ffmpeg env =
          { ok := false, err := some CombineErr.replaceError,
            calls := [Tool.concat, Tool.metadata],
            finalFile := FinalArtifact.unstamped }) := by
  intro env
  constructor
  · intro h
    by_cases h1 : (eligibleClips env.listing).isEmpty = true
    · simp [combine_audio_clips_ffmpeg, h1] at h
    · by_cases h2 : (env.concatRet != 0) = true
      · by_cases h3 : env.concatWrites = true <;>
          simp [combine_audio_clips_ffmpeg, h1, h2, h3] at h
      · by_cases h3 : env.concatWrites = true
        · by_cases h4 : env.metaWrites = true
          · exact h4
          · simp [combine_audio_clips_ffmpeg, h1, h2, h3, h4] at h
        · simp [combine_audio_clips_ffmpeg, h1, h2, h3] at h
  · intro h1 h2 h3 h4
    have he : (eligibleClips env.listing).isEmpty = false := by
      cases hev : eligibleClips env.listing with
      | nil => exact absurd hev h1
      | cons a l => simp [hev]
    simp [combine_audio_clips_ffmpeg, he, h2, h3, h4]

/-- C3 witness: one clip present, concat succeeds and writes the final
artifact, the metadata run writes nothing. -/
theorem c3_stamp_failure_preserves_final_witness :
    (eligibleClips ["001_Alex.mp3"] ≠ []) ∧
      combine_audio_clips_ffmpeg ⟨["001_Alex.mp3"], 0, true, false⟩ =
        { ok := false, err := some CombineErr.replaceError,
          calls := [Tool.concat, Tool.metadata],
          finalFile := FinalArtifact.unstamped } :=
  ⟨by decide,
    (c3_stamp_failure_preserves_final ⟨["001_Alex.mp3"], 0, true, false⟩).2
      (by decide) rfl rfl rfl⟩

/-! ## Numeric prefix lemmas (for C1 and C10) -/

lemma digitChar_lt10_ne_underscore : ∀ d : Nat, d < 10 → Nat.digitChar d ≠ '_' := by
  decide

lemma digitChar_lt10_toNat : ∀ d : Nat, d < 10 → (Nat.digitChar d).toNat - 48 = d := by
  decide

lemma natDigitsAux_mem :
    ∀ (fuel n : Nat) (c : Char), c ∈ natDigitsAux fuel n →
      ∃ d, d < 10 ∧ c = Nat.digitChar d := by
  intro fuel
  induction fuel with
  | zero => intro n c h; simp [natDigitsAux] at h
  | succ f ih =>
    intro n c h
    cases n with
    | zero => simp [natDigitsAux] at h
    | succ m =>
      simp only [natDigitsAux, List.mem_cons] at h
      rcases h with h | h
      · exact ⟨(m + 1) % 10, Nat.mod_lt _ (by decide), h⟩
      · exact ih _ c h

lemma pad3_mem_ne_underscore : ∀ (n : Nat) (c : Char), c ∈ pad3 n → c ≠ '_' := by
  intro n c h
  unfold pad3 natDigitsMSD at h
  rcases List.mem_append.1 h with h | h
  · have := List.eq_of_mem_replicate h
    subst this
    decide
  · rw [List.mem_reverse] at h
    obtain ⟨d, hd, rfl⟩ := natDigitsAux_mem n n c h
    exact digitChar_lt10_ne_underscore d hd

lemma takeWhile_append_cons (p : Char → Bool) :
    ∀ (xs : List Char) (y : Char) (ys : List Char),
      (∀ x ∈ xs, p x = true) → p y = false →
      (xs ++ y :: ys).takeWhile p = xs := by
  intro xs
  induction xs with
  | nil => intro y ys _ hy; simp [List.takeWhile, hy]
  | cons a as ih =>
    intro y ys h hy
    have ha := h a (by simp)
    simp only [List.cons_append, List.takeWhile, ha, List.append_eq]
    rw [ih y ys (fun x hx => h x (by simp [hx])) hy]

lemma dropWhile_append_cons (p : Char → Bool) :
    ∀ (xs : List Char) (y : Char) (ys : List Char),
      (∀ x ∈ xs, p x = true) → p y = false →
      (xs ++ y :: ys).dropWhile p = y :: ys := by
  intro xs
  induction xs with
  | nil => intro y ys _ hy; simp [List.dropWhile, hy]
  | cons a as ih =>
    intro y ys h hy
    have ha := h a (by simp)
    simp only [List.cons_append, List.dropWhile, ha, List.append_eq]
    exact ih y ys (fun x hx => h x (by simp [hx])) hy

lemma foldl_pyint_replicate_zero :
    ∀ k : Nat,
      List.foldl (fun a c => 10 * a + (c.toNat - 48)) 0 (List.replicate k '0') = 0 := by
  intro k
  induction k with
  | zero => rfl
  | succ k ih =>
    have h0 : (10 * 0 + ('0'.toNat - 48)) = 0 := by decide
    simp only [List.replicate_succ, List.foldl_cons, h0]
    exact ih

lemma foldl_pyint_digits :
    ∀ (fuel n a : Nat), n ≤ fuel →
      List.foldl (fun a c => 10 * a + (c.toNat - 48)) a (natDigitsAux fuel n).reverse =
        a * 10 ^ (natDigitsAux fuel n).length + n := by
  intro fuel
  induction fuel with
  | zero =>
    intro n a h
    have : n = 0 := Nat.le_zero.1 h
    subst this
    simp [natDigitsAux]
  | succ f ih =>
    intro n a h
    cases n with
    | zero => simp [natDigitsAux]
    | succ m =>
      have hdiv : (m + 1) / 10 ≤ f := by
        have h1 : (m + 1) / 10 < m + 1 := Nat.div_lt_self (Nat.succ_pos m) (by decide)
        omega
      simp only [natDigitsAux, List.reverse_cons, List.foldl_append, List.length_cons]
      rw [ih ((m + 1) / 10) a hdiv]
      simp only [List.foldl_cons, List.foldl_nil]
      rw [digitChar_lt10_toNat _ (Nat.mod_lt _ (by decide))]
      have hdm : 10 * ((m + 1) / 10) + (m + 1) % 10 = m + 1 := by omega
      calc 10 * (a * 10 ^ (natDigitsAux f ((m + 1) / 10)).length + (m + 1) / 10)
            + (m + 1) % 10
          = a * (10 ^ (natDigitsAux f ((m + 1) / 10)).length * 10) +
              (10 * ((m + 1) / 10) + (m + 1) % 10) := by ring
        _ = a * 10 ^ ((natDigitsAux f ((m + 1) / 10)).length + 1) + (m + 1) := by
              rw [hdm, pow_succ]

lemma pyInt_pad3 : ∀ n : Nat, pyInt (pad3 n) = n := by
  intro n
  unfold pyInt pad3
  rw [List.foldl_append, foldl_pyint_replicate_zero]
  have h := foldl_pyint_digits n n 0 (le_refl n)
  unfold natDigitsMSD
  simpa using h

lemma sortKey_mkFilename : ∀ (i : Nat) (sp : String), sortKeyFn (mkFilename i sp) = i + 1 := by
  intro i sp
  unfold sortKeyFn mkFilename
  have hdata :
      (String.mk (pad3 (i + 1)) ++ "_" ++ pyStrip sp ++ ".mp3").data =
        pad3 (i + 1) ++ '_' :: ((pyStrip sp).data ++ ".mp3".data) := by
    simp [String.data_append]
  rw [hdata]
  rw [takeWhile_append_cons _ _ _ _
    (fun x hx => by
      have := pad3_mem_ne_underscore (i + 1) x hx
      simpa using this)
    (by decide)]
  exact pyInt_pad3 (i + 1)

/-! ## Synthesis-stage structure lemmas -/

lemma stageFilesFrom_mem (mapping : List (String × String)) (oracle : Nat → Nat → SynthResp) :
    ∀ (lines : List (String × String)) (n : Nat) (f : String),
      f ∈ stageFilesFrom mapping oracle n lines →
      ∃ j sp ln, lines.get? j = some (sp, ln) ∧ f = mkFilename (n + j) sp ∧
        stageKeep mapping oracle (n + j) sp = true := by
  intro lines
  induction lines with
  | nil => intro n f h; simp [stageFilesFrom] at h
  | cons hd tl ih =>
    intro n f h
    obtain ⟨sp, ln⟩ := hd
    by_cases hk : stageKeep mapping oracle n sp = true
    · simp only [stageFilesFrom, hk, if_true, List.mem_cons] at h
      rcases h with h | h
      · exact ⟨0, sp, ln, rfl, by simpa using h, by simpa using hk⟩
      · obtain ⟨j, sp', ln', h1, h2, h3⟩ := ih (n + 1) f h
        refine ⟨j + 1, sp', ln', by simpa using h1, ?_, ?_⟩
        · rw [h2]
          congr 1
          omega
        · have : n + 1 + j = n + (j + 1) := by omega
          rwa [this] at h3
    · simp only [stageFilesFrom, hk, if_false] at h
      obtain ⟨j, sp', ln', h1, h2, h3⟩ := ih (n + 1) f h
      refine ⟨j + 1, sp', ln', by simpa using h1, ?_, ?_⟩
      · rw [h2]
        congr 1
        omega
      · have : n + 1 + j = n + (j + 1) := by omega
        rwa [this] at h3

lemma stageFilesFrom_key_gt (mapping : List (String × String)) (oracle : Nat → Nat → SynthResp) :
    ∀ (lines : List (String × String)) (n : Nat) (f : String),
      f ∈ stageFilesFrom mapping oracle n lines → n < sortKeyFn f := by
  intro lines n f h
  obtain ⟨j, sp, ln, _, h2, _⟩ := stageFilesFrom_mem mapping oracle lines n f h
  rw [h2, sortKey_mkFilename]
  omega

lemma stageFilesFrom_pairwise (mapping : List (String × String)) (oracle : Nat → Nat → SynthResp) :
    ∀ (lines : List (String × String)) (n : Nat),
      List.Pairwise (fun a b => sortKeyFn a < sortKeyFn b)
        (stageFilesFrom mapping oracle n lines) := by
  intro lines
  induction lines with
  | nil => intro n; simp [stageFilesFrom]
  | cons hd tl ih =>
    intro n
    obtain ⟨sp, ln⟩ := hd
    by_cases hk : stageKeep mapping oracle n sp = true
    · simp only [stageFilesFrom, hk, if_true]
      refine List.Pairwise.cons ?_ (ih (n + 1))
      intro b hb
      have hgt := stageFilesFrom_key_gt mapping oracle tl (n + 1) b hb
      rw [sortKey_mkFilename]
      omega
    · simp only [stageFilesFrom, hk, if_false]
      exact ih (n + 1)

lemma pySorted_of_pairwise (k : String → Nat) :
    ∀ l : List String, List.Pairwise (fun a b => k a < k b) l → pySorted k l = l := by
  intro l
  induction l with
  | nil => intro _; rfl
  | cons x xs ih =>
    intro h
    rw [List.pairwise_cons] at h
    obtain ⟨h1, h2⟩ := h
    show insertByKey k x (pySorted k xs) = x :: xs
    rw [ih h2]
    cases xs with
    | nil => rfl
    | cons y ys =>
      have hle : k x ≤ k y := le_of_lt (h1 y (by simp))
      simp [insertByKey, hle]

/-! ## C10: clip numbering invariants -/

/-- C10.  Each surviving clip's numeric prefix parses back (via the
assembler's sort key `int(x.split("_")[0])`) to its 1-based line index;
the generated file list is strictly increasing in that key — skipped
lines leave gaps but never shift other clips — so the assembler's sort
leaves the script order unchanged. -/
theorem c10_clip_numbering_matches_script_order :
    ∀ (script : String) (mapping : List (String × String)) (oracle : Nat → Nat → SynthResp),
      (∀ (i : Nat) (sp : String), sortKeyFn (mkFilename i sp) = i + 1) ∧
      List.Pairwise (fun a b => sortKeyFn a < sortKeyFn b)
        (extract_and_generate_audio script mapping oracle).2 ∧
      pySorted sortKeyFn (extract_and_generate_audio script mapping oracle).2 =
        (extract_and_generate_audio script mapping oracle).2 := by
  intro script mapping oracle
  have hp : List.Pairwise (fun a b => sortKeyFn a < sortKeyFn b)
      (extract_and_generate_audio script mapping oracle).2 := by
    unfold extract_and_generate_audio
    by_cases h1 : (dialogueExtract script).isEmpty = true
    · simp [h1]
    · by_cases h2 :
        (stageFilesFrom mapping oracle 0 (dialogueExtract script)).isEmpty = true
      · simp [h1, h2]
      · simp only [h1, h2, if_false]
        exact stageFilesFrom_pairwise mapping oracle (dialogueExtract script) 0
  exact ⟨sortKey_mkFilename, hp, pySorted_of_pairwise _ _ hp⟩

/-! ## C1: synthesis-stage success criterion -/

/-- C1.  For a script whose extraction is non-empty: the stage succeeds
iff at least one line's artifact was written, reports
the NoAudioGenerated failure iff zero lines succeeded, and a line whose
three synthesis attempts all fail is skipped — its artifact is absent —
without aborting the stage (the stage still returns through the same
success criterion). -/
theorem c1_stage_success_iff_some_line_succeeded :
    ∀ (script : String) (mapping : List (String × String)) (oracle : Nat → Nat → SynthResp),
      dialogueExtract script ≠ [] →
      ((extract_and_generate_audio script mapping oracle).1 = StageResult.ok ↔
        (extract_and_generate_audio script mapping oracle).2 ≠ []) ∧
      ((extract_and_generate_audio script mapping oracle).1 = StageResult.noAudioGenerated ↔
        (extract_and_generate_audio script mapping oracle).2 = []) ∧
      (∀ (i : Nat) (sp ln : String),
        (dialogueExtract script).get? i = some (sp, ln) →
        synthLine (oracle i) = false →
        mkFilename i sp ∉ (extract_and_generate_audio script mapping oracle).2) := by
  intro script mapping oracle h
  have h1 : (dialogueExtract script).isEmpty = false := by
    cases hv : dialogueExtract script with
    | nil => exact absurd hv h
    | cons a l => rfl
  unfold extract_and_generate_audio
  by_cases h2 : (stageFilesFrom mapping oracle 0 (dialogueExtract script)).isEmpty = true
  · have h2' : stageFilesFrom mapping oracle 0 (dialogueExtract script) = [] := by
      cases hv : stageFilesFrom mapping oracle 0 (dialogueExtract script) with
      | nil => rfl
      | cons a l => rw [hv] at h2; exact absurd h2 (by simp)
    simp [h1, h2]
  · have h2' : stageFilesFrom mapping oracle 0 (dialogueExtract script) ≠ [] := by
      intro hv
      rw [hv] at h2
      exact h2 rfl
    simp only [h1, h2, if_false, Bool.false_eq_true]
    refine ⟨by simpa using h2', by simp [h2'], ?_⟩
    intro i sp ln hg hs hmem
    obtain ⟨j, sp', ln', hj1, hj2, hj3⟩ :=
      stageFilesFrom_mem mapping oracle (dialogueExtract script) 0 _ hmem
    have hkey : i + 1 = 0 + j + 1 := by
      have := congrArg sortKeyFn hj2
      rwa [sortKey_mkFilename, sortKey_mkFilename] at this
    have hij : i = j := by omega
    subst hij
    rw [hg] at hj1
    have hsp : sp = sp' := by
      injection hj1 with hpair
      exact congrArg Prod.fst hpair
    rw [← hsp] at hj3
    have hkeep : stageKeep mapping oracle i sp = true := by simpa using hj3
    unfold stageKeep at hkeep
    cases hv : stageVoice mapping sp with
    | none => rw [hv] at hkeep; simp at hkeep
    | some v =>
      rw [hv] at hkeep
      simp only [Bool.and_eq_true] at hkeep
      rw [hs] at hkeep
      exact absurd hkeep.2 (by simp)

/-- C1 witness: the theorem applied to the concrete run in which line 0
fails all three attempts and line 1 succeeds. -/
theorem c1_stage_success_iff_some_line_succeeded_witness :
    (dialogueExtract exScript ≠ []) ∧
      ((extract_and_generate_audio exScript exMapping exOracle).1 = StageResult.ok ↔
        (extract_and_generate_audio exScript exMapping exOracle).2 ≠ []) :=
  ⟨by decide,
    (c1_stage_success_iff_some_line_succeeded exScript exMapping exOracle (by decide)).1⟩

/-! ## Voice-assignment lemmas (for C4 and C9) -/

lemma memB_cons_false (v c : String) (used : List String) :
    memB v (c :: used) = false → memB v used = false := by
  intro h
  simp only [memB, List.any_cons, Bool.or_eq_false_iff] at h ⊢
  exact h.2

lemma availLen_cons_fresh :
    ∀ P : List String, P.Nodup → ∀ (used : List String) (c : String),
      c ∈ P → memB c used = false → availLen P (c :: used) + 1 = availLen P used := by
  intro P
  induction P with
  | nil => intro _ used c hc _; simp at hc
  | cons p P' ih =>
    intro hnd used c hc hcu
    rw [List.nodup_cons] at hnd
    obtain ⟨hp, hnd'⟩ := hnd
    unfold availLen at *
    rcases List.mem_cons.1 hc with rfl | hc'
    · have h1 : memB c (c :: used) = true := by simp [memB]
      have h2 : ∀ v ∈ P', (!memB v (c :: used)) = (!memB v used) := by
        intro v hv
        have hvp : v ≠ c := fun h => hp (h ▸ hv)
        have : (c == v) = false := beq_eq_false_iff_ne.2 (fun h => hvp h.symm)
        simp [memB, this]
      rw [List.filter_cons, List.filter_cons]
      simp only [h1, Bool.not_true, Bool.false_eq_true, if_false, hcu, Bool.not_false, if_true]
      rw [List.filter_congr h2]
      simp
    · have hpc : p ≠ c := fun h => hp (h ▸ hc')
      have h1 : memB p (c :: used) = memB p used := by
        have : (c == p) = false := beq_eq_false_iff_ne.2 (fun h => hpc h.symm)
        simp [memB, this]
      rw [List.filter_cons, List.filter_cons, h1]
      have hrec := ih hnd' used c hc' hcu
      cases hmb : memB p used
      · simp only [hmb, Bool.not_false, if_true, List.length_cons]
        omega
      · simp only [hmb, Bool.not_true, Bool.false_eq_true, if_false]
        omega

lemma availLen_cons_notmem :
    ∀ (P used : List String) (c : String), c ∉ P →
      availLen P (c :: used) = availLen P used := by
  intro P used c hc
  unfold availLen
  congr 1
  apply List.filter_congr
  intro v hv
  have hvc : v ≠ c := fun h => hc (h ▸ hv)
  have : (c == v) = false := beq_eq_false_iff_ne.2 (fun h => hvc h.symm)
  simp [memB, this]

lemma poolOfG_cases (P : List String) (hP : P = MALE_VOICES ∨ P = FEMALE_VOICES) :
    ∀ g : String, poolOfG g = P ∨ (poolOfG g ≠ P ∧ ∀ v ∈ poolOfG g, v ∉ P) := by
  intro g
  unfold poolOfG
  by_cases hg : (g == "male") = true
  · simp only [hg, if_true]
    rcases hP with rfl | rfl
    · exact Or.inl rfl
    · exact Or.inr ⟨by decide, by decide⟩
  · simp only [hg, Bool.false_eq_true, if_false]
    rcases hP with rfl | rfl
    · exact Or.inr ⟨by decide, by decide⟩
    · exact Or.inl rfl

lemma assignGo_pool_nodup (pick : List String → String)
    (hpick : ∀ l : List String, l ≠ [] → pick l ∈ l)
    (P : List String) (hPnd : P.Nodup)
    (hdisj : ∀ g : String, poolOfG g = P ∨ (poolOfG g ≠ P ∧ ∀ v ∈ poolOfG g, v ∉ P)) :
    ∀ (chars : List PChar) (used : List String) (mapAcc : List (String × String))
      (assignAcc : List String) (traceAcc : List (String × String))
      (m : List (String × String)) (a : List String) (t : List (String × String)),
      assignGo pick chars mapAcc used assignAcc traceAcc = some (m, a, t) →
      countPool P chars ≤ availLen P used →
      ∃ nt, t = traceAcc ++ nt ∧ (chosenForPool P nt).Nodup ∧
        (∀ v ∈ chosenForPool P nt, v ∈ P ∧ memB v used = false) := by
  intro chars
  induction chars with
  | nil =>
    intro used mapAcc assignAcc traceAcc m a t hgo _
    simp only [assignGo, Option.some.injEq, Prod.mk.injEq] at hgo
    refine ⟨[], ?_, by simp [chosenForPool], by simp [chosenForPool]⟩
    rw [← hgo.2.2]
    simp
  | cons ch rest ih =>
    intro used mapAcc assignAcc traceAcc m a t hgo hcount
    cases hk : firstKeyOpt ch.name with
    | none =>
      simp only [assignGo, hk] at hgo
      exact Option.noConfusion hgo
    | some key =>
      simp only [assignGo, hk] at hgo
      rcases hdisj ch.gender with hsame | ⟨hne, hdisjv⟩
      · -- the character draws from the tracked pool P
        have hpoolP : poolOf ch = P := hsame
        have hcnt : countPool P (ch :: rest) = countPool P rest + 1 := by
          unfold countPool
          rw [List.filter_cons]
          simp [beq_iff_eq, hpoolP]
        have havlen :
            ((poolOf ch).filter (fun v => !memB v used)).length = availLen P used := by
          rw [hpoolP]; rfl
        have havne : ((poolOf ch).filter (fun v => !memB v used)).isEmpty = false := by
          have hge : 1 ≤ availLen P used := by omega
          cases hv : (poolOf ch).filter (fun v => !memB v used) with
          | nil => rw [hv] at havlen; simp at havlen; omega
          | cons x xs => rfl
        rw [havne] at hgo
        simp only [Bool.false_eq_true, if_false] at hgo
        have hchmem := hpick ((poolOf ch).filter (fun v => !memB v used)) (by
          intro hnil
          rw [hnil] at havne
          exact absurd havne (by simp))
        rw [hpoolP] at hchmem
        have hchP := List.mem_filter.1 hchmem
        have hchfresh : memB (pick (P.filter (fun v => !memB v used))) used = false := by
          have := hchP.2
          simp only [Bool.not_eq_true'] at this
          exact this
        rw [hpoolP] at hgo
        set c := pick (P.filter (fun v => !memB v used)) with hc
        have hcount' : countPool P rest ≤ availLen P (c :: used) := by
          have := availLen_cons_fresh P hPnd used c hchP.1 hchfresh
          omega
        obtain ⟨nt', h1, h2, h3⟩ := ih (c :: used) _ _ _ _ _ _ hgo hcount'
        refine ⟨(ch.gender, c) :: nt', ?_, ?_, ?_⟩
        · rw [h1]; simp
        · unfold chosenForPool
          rw [List.filter_cons]
          have hcond : (poolOfG ch.gender == P) = true := by simp [hsame]
          simp only [hcond, if_true, List.map_cons]
          refine List.Pairwise.cons ?_ h2
          intro b hb hbc
          have := (h3 b hb).2
          rw [← hbc] at this
          simp [memB] at this
        · intro v hv
          unfold chosenForPool at hv
          rw [List.filter_cons] at hv
          have hcond : (poolOfG ch.gender == P) = true := by simp [hsame]
          simp only [hcond, if_true, List.map_cons, List.mem_cons] at hv
          rcases hv with rfl | hv
          · exact ⟨hchP.1, hchfresh⟩
          · have := h3 v hv
            exact ⟨this.1, memB_cons_false v c used this.2⟩
      · -- the character draws from the other pool, disjoint from P
        have hcnt : countPool P (ch :: rest) = countPool P rest := by
          unfold countPool
          rw [List.filter_cons]
          have : (poolOf ch == P) = false := beq_eq_false_iff_ne.2 hne
          simp [this]
        by_cases hem : ((poolOf ch).filter (fun v => !memB v used)).isEmpty = true
        · rw [hem] at hgo
          simp only [if_true] at hgo
          obtain ⟨nt', h1, h2, h3⟩ := ih used _ _ _ _ _ _ hgo (by omega)
          refine ⟨(ch.gender, pick (poolOf ch)) :: nt', by rw [h1]; simp, ?_, ?_⟩
          · unfold chosenForPool
            rw [List.filter_cons]
            have : (poolOfG ch.gender == P) = false := beq_eq_false_iff_ne.2 hne
            simp only [this, Bool.false_eq_true, if_false]
            exact h2
          · intro v hv
            unfold chosenForPool at hv
            rw [List.filter_cons] at hv
            have : (poolOfG ch.gender == P) = false := beq_eq_false_iff_ne.2 hne
            simp only [this, Bool.false_eq_true, if_false] at hv
            exact h3 v hv
        · rw [eq_false_of_ne_true hem] at hgo
          simp only [Bool.false_eq_true, if_false] at hgo
          have hchmem := hpick ((poolOf ch).filter (fun v => !memB v used)) (by
            intro hnil
            rw [hnil] at hem
            exact hem rfl)
          have hchpool : pick ((poolOf ch).filter (fun v => !memB v used)) ∈ poolOf ch :=
            (List.mem_filter.1 hchmem).1
          have hchnotP : pick ((poolOf ch).filter (fun v => !memB v used)) ∉ P :=
            hdisjv _ hchpool
          set c := pick ((poolOf ch).filter (fun v => !memB v used)) with hc
          have hcount' : countPool P rest ≤ availLen P (c :: used) := by
            rw [availLen_cons_notmem P used c hchnotP]
            omega
          obtain ⟨nt', h1, h2, h3⟩ := ih (c :: used) _ _ _ _ _ _ hgo hcount'
          refine ⟨(ch.gender, c) :: nt', by rw [h1]; simp, ?_, ?_⟩
          · unfold chosenForPool
            rw [List.filter_cons]
            have : (poolOfG ch.gender == P) = false := beq_eq_false_iff_ne.2 hne
            simp only [this, Bool.false_eq_true, if_false]
            exact h2
          · intro v hv
            unfold chosenForPool at hv
            rw [List.filter_cons] at hv
            have : (poolOfG ch.gender == P) = false := beq_eq_false_iff_ne.2 hne
            simp only [this, Bool.false_eq_true, if_false] at hv
            have := h3 v hv
            exact ⟨this.1, memB_cons_false v c used this.2⟩

lemma assignGo_shape (pick : List String → String) :
    ∀ (chars : List PChar) (mapAcc : List (String × String)) (used : List String)
      (assignAcc : List String) (traceAcc : List (String × String))
      (m : List (String × String)) (a : List String) (t : List (String × String)),
      assignGo pick chars mapAcc used assignAcc traceAcc = some (m, a, t) →
      ∃ nt : List (String × String), t = traceAcc ++ nt ∧ nt.length = chars.length ∧
        a = assignAcc ++ (chars.zip nt).map (fun p => mkAssignStr p.1.name p.2.2) := by
  intro chars
  induction chars with
  | nil =>
    intro mapAcc used assignAcc traceAcc m a t hgo
    simp only [assignGo, Option.some.injEq, Prod.mk.injEq] at hgo
    exact ⟨[], by rw [← hgo.2.2]; simp, rfl, by rw [← hgo.2.1]; simp⟩
  | cons ch rest ih =>
    intro mapAcc used assignAcc traceAcc m a t hgo
    cases hk : firstKeyOpt ch.name with
    | none =>
      simp only [assignGo, hk] at hgo
      exact Option.noConfusion hgo
    | some key =>
      simp only [assignGo, hk] at hgo
      by_cases hem : ((poolOf ch).filter (fun v => !memB v used)).isEmpty = true
      · rw [hem] at hgo
        simp only [if_true] at hgo
        obtain ⟨nt', h1, h2, h3⟩ := ih _ _ _ _ _ _ _ hgo
        refine ⟨(ch.gender, pick (poolOf ch)) :: nt', by rw [h1]; simp, by simp [h2], ?_⟩
        rw [h3]
        simp [mkAssignStr]
      · rw [eq_false_of_ne_true hem] at hgo
        simp only [Bool.false_eq_true, if_false] at hgo
        obtain ⟨nt', h1, h2, h3⟩ := ih _ _ _ _ _ _ _ hgo
        refine ⟨(ch.gender, pick ((poolOf ch).filter (fun v => !memB v used))) :: nt',
          by rw [h1]; simp, by simp [h2], ?_⟩
        rw [h3]
        simp [mkAssignStr]

lemma assignGo_total (pick : List String → String) :
    ∀ (chars : List PChar) (mapAcc : List (String × String)) (used : List String)
      (assignAcc : List String) (traceAcc : List (String × String)),
      (∀ ch ∈ chars, (firstKeyOpt ch.name).isSome = true) →
      (assignGo pick chars mapAcc used assignAcc traceAcc).isSome = true := by
  intro chars
  induction chars with
  | nil => intro mapAcc used assignAcc traceAcc _; rfl
  | cons ch rest ih =>
    intro mapAcc used assignAcc traceAcc hnames
    cases hk : firstKeyOpt ch.name with
    | none =>
      have := hnames ch (by simp)
      rw [hk] at this
      exact absurd this (by simp)
    | some key =>
      simp only [assignGo, hk]
      have hrest : ∀ ch' ∈ rest, (firstKeyOpt ch'.name).isSome = true :=
        fun ch' h => hnames ch' (by simp [h])
      by_cases hem : ((poolOf ch).filter (fun v => !memB v used)).isEmpty = true
      · rw [hem]
        simp only [if_true]
        exact ih _ _ _ _ hrest
      · rw [eq_false_of_ne_true hem]
        simp only [Bool.false_eq_true, if_false]
        exact ih _ _ _ _ hrest

lemma dictLookup_insert_self :
    ∀ (m : List (String × String)) (k v : String),
      dictLookup k (dictInsert k v m) = some v := by
  intro m
  induction m with
  | nil => intro k v; simp [dictInsert, dictLookup]
  | cons hd tl ih =>
    intro k v
    obtain ⟨k', v'⟩ := hd
    by_cases h : (k' == k) = true
    · simp [dictInsert, dictLookup, h]
    · simp only [dictInsert, h, Bool.false_eq_true, if_false]
      simp only [dictLookup, h, Bool.false_eq_true, if_false]
      exact ih k v

lemma dictLookup_insert_ne :
    ∀ (m : List (String × String)) (k k' v : String), k' ≠ k →
      dictLookup k' (dictInsert k v m) = dictLookup k' m := by
  intro m
  induction m with
  | nil =>
    intro k k' v hne
    have : (k == k') = false := beq_eq_false_iff_ne.2 (fun h => hne h.symm)
    simp [dictInsert, dictLookup, this]
  | cons hd tl ih =>
    intro k k' v hne
    obtain ⟨k0, v0⟩ := hd
    by_cases h : (k0 == k) = true
    · have hk0 : k0 = k := by simpa using h
      have h2 : (k == k') = false := beq_eq_false_iff_ne.2 (fun hh => hne hh.symm)
      have h3 : (k0 == k') = false := by rw [hk0]; exact h2
      simp [dictInsert, dictLookup, h, h2, h3]
    · simp only [dictInsert, h, Bool.false_eq_true, if_false]
      by_cases h4 : (k0 == k') = true
      · simp [dictLookup, h4]
      · simp only [dictLookup, h4, Bool.false_eq_true, if_false]
        exact ih k k' v hne

lemma dictInsert_keys_mem :
    ∀ (m : List (String × String)) (k v x : String),
      x ∈ (dictInsert k v m).map Prod.fst ↔ x = k ∨ x ∈ m.map Prod.fst := by
  intro m
  induction m with
  | nil => intro k v x; simp [dictInsert]
  | cons hd tl ih =>
    intro k v x
    obtain ⟨k0, v0⟩ := hd
    by_cases h : (k0 == k) = true
    · have hk0 : k0 = k := by simpa using h
      subst hk0
      have hins : dictInsert k0 v ((k0, v0) :: tl) = (k0, v) :: tl := by
        simp [dictInsert]
      rw [hins]
      simp only [List.map_cons, List.mem_cons]
      tauto
    · simp only [dictInsert, h, Bool.false_eq_true, if_false, List.map_cons, List.mem_cons]
      rw [ih]
      tauto

lemma dictInsert_keys_nodup :
    ∀ (m : List (String × String)) (k v : String),
      (m.map Prod.fst).Nodup → ((dictInsert k v m).map Prod.fst).Nodup := by
  intro m
  induction m with
  | nil => intro k v _; simp [dictInsert]
  | cons hd tl ih =>
    intro k v hnd
    obtain ⟨k0, v0⟩ := hd
    simp only [List.map_cons, List.nodup_cons] at hnd
    obtain ⟨h1, h2⟩ := hnd
    by_cases h : (k0 == k) = true
    · have hk0 : k0 = k := by simpa using h
      simp only [dictInsert, h, if_true, List.map_cons, List.nodup_cons]
      exact ⟨by rw [← hk0]; exact h1, h2⟩
    · have hk0 : k0 ≠ k := by simpa using h
      simp only [dictInsert, h, Bool.false_eq_true, if_false, List.map_cons,
        List.nodup_cons]
      constructor
      · rw [dictInsert_keys_mem]
        rintro (rfl | hmem)
        · exact hk0 rfl
        · exact h1 hmem
      · exact ih k v h2

lemma getLast?_cons_eq_optOr (c : String) (L : List String) :
    (c :: L).getLast? = optOr L.getLast? (some c) := by
  cases L with
  | nil => rfl
  | cons d L' =>
    rw [List.getLast?_cons_cons]
    have : (d :: L').getLast? ≠ none := by
      simp [List.getLast?_eq_none_iff]
    cases h : (d :: L').getLast? with
    | none => exact absurd h this
    | some x => simp [optOr]

lemma assignGo_lookup (pick : List String → String) :
    ∀ (chars : List PChar) (mapAcc : List (String × String)) (used : List String)
      (assignAcc : List String) (traceAcc : List (String × String))
      (m : List (String × String)) (a : List String) (t : List (String × String)),
      assignGo pick chars mapAcc used assignAcc traceAcc = some (m, a, t) →
      ((mapAcc.map Prod.fst).Nodup → (m.map Prod.fst).Nodup) ∧
      ∃ nt, t = traceAcc ++ nt ∧
        ∀ k, dictLookup k m =
          optOr (((chars.zip nt).filterMap
              (fun p => if firstKeyOpt p.1.name = some k then some p.2.2 else none)).getLast?)
            (dictLookup k mapAcc) := by
  intro chars
  induction chars with
  | nil =>
    intro mapAcc used assignAcc traceAcc m a t hgo
    simp only [assignGo, Option.some.injEq, Prod.mk.injEq] at hgo
    refine ⟨fun h => hgo.1 ▸ h, [], by rw [← hgo.2.2]; simp, ?_⟩
    intro k
    rw [← hgo.1]
    simp [optOr]
  | cons ch rest ih =>
    intro mapAcc used assignAcc traceAcc m a t hgo
    cases hk : firstKeyOpt ch.name with
    | none =>
      simp only [assignGo, hk] at hgo
      exact Option.noConfusion hgo
    | some key =>
      simp only [assignGo, hk] at hgo
      have main :
          ∀ (chosen : String) (used' : List String),
            assignGo pick rest (dictInsert key chosen mapAcc) used'
                (assignAcc ++ [mkAssignStr ch.name chosen])
                (traceAcc ++ [(ch.gender, chosen)]) = some (m, a, t) →
            ((mapAcc.map Prod.fst).Nodup → (m.map Prod.fst).Nodup) ∧
            ∃ nt, t = traceAcc ++ nt ∧
              ∀ k, dictLookup k m =
                optOr ((((ch :: rest).zip nt).filterMap
                    (fun p => if firstKeyOpt p.1.name = some k then some p.2.2 else none)).getLast?)
                  (dictLookup k mapAcc) := by
        intro chosen used' hgo'
        obtain ⟨hnodup, nt', h1, h2⟩ := ih _ _ _ _ _ _ _ hgo'
        refine ⟨fun h => hnodup (dictInsert_keys_nodup _ _ _ h),
          (ch.gender, chosen) :: nt', by rw [h1]; simp, ?_⟩
        intro k
        rw [h2 k]
        have hstep : (((ch :: rest).zip ((ch.gender, chosen) :: nt')).filterMap
            (fun p => if firstKeyOpt p.1.name = some k then some p.2.2 else none)) =
          (if firstKeyOpt ch.name = some k then
            chosen :: ((rest.zip nt').filterMap
              (fun p => if firstKeyOpt p.1.name = some k then some p.2.2 else none))
          else ((rest.zip nt').filterMap
              (fun p => if firstKeyOpt p.1.name = some k then some p.2.2 else none))) := by
          rw [List.zip_cons_cons, List.filterMap_cons]
          by_cases hc : firstKeyOpt ch.name = some k
          · rw [if_pos hc, if_pos hc]
          · rw [if_neg hc, if_neg hc]
        rw [hstep]
        by_cases hkk : key = k
        · subst hkk
          rw [if_pos hk, dictLookup_insert_self, getLast?_cons_eq_optOr]
          cases hL : ((rest.zip nt').filterMap
              (fun p => if firstKeyOpt p.1.name = some key then some p.2.2 else none)).getLast? with
          | none => simp [optOr]
          | some x => simp [optOr]
        · rw [if_neg (by
            rw [hk]
            intro hcc
            exact hkk (Option.some.inj hcc))]
          rw [dictLookup_insert_ne mapAcc key k chosen (fun h => hkk h.symm)]
      by_cases hem : ((poolOf ch).filter (fun v => !memB v used)).isEmpty = true
      · rw [hem] at hgo
        simp only [if_true] at hgo
        exact main _ _ hgo
      · rw [eq_false_of_ne_true hem] at hgo
        simp only [Bool.false_eq_true, if_false] at hgo
        exact main _ _ hgo

/-! ## C4: N assignments, distinct same-gender voices -/

/-- C4 counterexample.  The claim says the function never fails, but a
speaker whose name consists only of whitespace makes
`char["name"].strip().split()[0]` raise `IndexError` (`"".split()` is
empty): the embedded function returns `none` (Python: the exception
propagates out of `assign_voices_to_characters`). -/
theorem c4_counterexample :
    assign_voices_to_characters pickHead [⟨" ", "male"⟩] = none := by decide

/-- C4 (amended).  For every list of N speakers with genders whose names
each contain a non-whitespace character, the function succeeds and
returns exactly N assignment strings in input order (the i-th string
formats the i-th speaker's name with the i-th chosen voice); and if at
most 3 speakers draw from each gender pool, the voices chosen for
same-gender speakers are pairwise distinct.  (For a whitespace-only name
the function raises instead, see the counterexample.) -/
theorem c4_assign_voices_count_and_distinct :
    ∀ pick : List String → String, (∀ l : List String, l ≠ [] → pick l ∈ l) →
    ∀ chars : List PChar, (∀ ch ∈ chars, (firstKeyOpt ch.name).isSome = true) →
    ∃ m a t, assign_voices_to_characters pick chars = some (m, a, t) ∧
      a.length = chars.length ∧
      a = (chars.zip t).map (fun p => mkAssignStr p.1.name p.2.2) ∧
      (countPool MALE_VOICES chars ≤ 3 → countPool FEMALE_VOICES chars ≤ 3 →
        (chosenForPool MALE_VOICES t).Nodup ∧ (chosenForPool FEMALE_VOICES t).Nodup) := by
  intro pick hpick chars hnames
  have htot := assignGo_total pick chars [] [] [] [] hnames
  cases hgo : assignGo pick chars [] [] [] [] with
  | none => rw [hgo] at htot; exact absurd htot (by simp)
  | some res =>
    obtain ⟨m, a, t⟩ := res
    obtain ⟨nt, h1, h2, h3⟩ := assignGo_shape pick chars [] [] [] [] m a t hgo
    have hnt : nt = t := by simpa using h1.symm
    subst hnt
    refine ⟨m, a, nt, hgo, ?_, by simpa using h3, ?_⟩
    · rw [h3]
      simp [List.length_zip, h2]
    · intro hm hf
      constructor
      · have havail : availLen MALE_VOICES [] = 3 := by decide
        obtain ⟨nt', h1', hnd, _⟩ :=
          assignGo_pool_nodup pick hpick MALE_VOICES (by decide)
            (poolOfG_cases MALE_VOICES (Or.inl rfl)) chars [] [] [] [] m a nt hgo
            (by rw [havail]; exact hm)
        have : nt' = nt := by simpa using h1'.symm
        rwa [this] at hnd
      · have havail : availLen FEMALE_VOICES [] = 3 := by decide
        obtain ⟨nt', h1', hnd, _⟩ :=
          assignGo_pool_nodup pick hpick FEMALE_VOICES (by decide)
            (poolOfG_cases FEMALE_VOICES (Or.inr rfl)) chars [] [] [] [] m a nt hgo
            (by rw [havail]; exact hf)
        have : nt' = nt := by simpa using h1'.symm
        rwa [this] at hnd

/-- C4 witness: the amended theorem applied to `exChars` with the
deterministic picker. -/
theorem c4_assign_voices_count_and_distinct_witness :
    ∃ m a t, assign_voices_to_characters pickHead exChars = some (m, a, t) ∧
      a.length = exChars.length ∧
      a = (exChars.zip t).map (fun p => mkAssignStr p.1.name p.2.2) ∧
      (countPool MALE_VOICES exChars ≤ 3 → countPool FEMALE_VOICES exChars ≤ 3 →
        (chosenForPool MALE_VOICES t).Nodup ∧ (chosenForPool FEMALE_VOICES t).Nodup) :=
  c4_assign_voices_count_and_distinct pickHead pickHead_mem exChars (by decide)

/-! ## C9: duplicate first-name keys -/

/-- C9.  The assignment list always has one entry per speaker, but the
voice mapping is keyed by lower-cased first name: its keys are distinct
(one entry per key), and the entry for a key holds exactly the voice
chosen for the *last* speaker with that first-name key; the synthesis
stage resolves a line's voice precisely by looking that key up in the
mapping, so every line of speakers sharing a first name is synthesized
with the last such speaker's voice. -/
theorem c9_first_name_collision_last_write_wins :
    ∀ (pick : List String → String) (chars : List PChar)
      (m : List (String × String)) (a : List String) (t : List (String × String)),
      assign_voices_to_characters pick chars = some (m, a, t) →
      a.length = chars.length ∧
      (m.map Prod.fst).Nodup ∧
      (∀ k : String, dictLookup k m = lastWrite k chars t) ∧
      (∀ (mapping : List (String × String)) (sp k : String),
        firstKeyOpt sp = some k → stageVoice mapping sp = dictLookup k mapping) := by
  intro pick chars m a t hgo
  obtain ⟨nt, h1, h2, h3⟩ := assignGo_shape pick chars [] [] [] [] m a t hgo
  obtain ⟨hnodup, nt2, h1', h4⟩ := assignGo_lookup pick chars [] [] [] [] m a t hgo
  have hnt : nt = t := by simpa using h1.symm
  have hnt2 : nt2 = t := by simpa using h1'.symm
  refine ⟨?_, hnodup (by simp), ?_, ?_⟩
  · rw [h3, hnt]
    rw [hnt] at h2
    simp only [List.nil_append, List.length_map, List.length_zip, h2, Nat.min_self]
  · intro k
    rw [h4 k, hnt2]
    unfold lastWrite
    cases hL : ((chars.zip t).filterMap
        (fun p => if firstKeyOpt p.1.name = some k then some p.2.2 else none)).getLast? with
    | none => simp [optOr, dictLookup]
    | some x => simp [optOr]
  · intro mapping sp k hsp
    unfold stageVoice
    rw [hsp]

/-- C9 witness: with the deterministic picker, the mapping retains a
single `alex` entry holding the second speaker's voice. -/
theorem c9_first_name_collision_last_write_wins_witness :
    (assign_voices_to_characters pickHead dupChars =
      some ([("alex", "wViXBPUzp2ZZixB1xQuM")],
        ["Alex Smith → Voice ID: iP95p4xoKVk53GoZ742B",
         "alex Jones → Voice ID: wViXBPUzp2ZZixB1xQuM"],
        [("male", "iP95p4xoKVk53GoZ742B"), ("male", "wViXBPUzp2ZZixB1xQuM")])) ∧
    dictLookup "alex" [("alex", "wViXBPUzp2ZZixB1xQuM")] =
      lastWrite "alex" dupChars
        [("male", "iP95p4xoKVk53GoZ742B"), ("male", "wViXBPUzp2ZZixB1xQuM")] := by
  have h : assign_voices_to_characters pickHead dupChars =
      some ([("alex", "wViXBPUzp2ZZixB1xQuM")],
        ["Alex Smith → Voice ID: iP95p4xoKVk53GoZ742B",
         "alex Jones → Voice ID: wViXBPUzp2ZZixB1xQuM"],
        [("male", "iP95p4xoKVk53GoZ742B"), ("male", "wViXBPUzp2ZZixB1xQuM")]) := by
    decide
  exact ⟨h,
    (c9_first_name_collision_last_write_wins pickHead dupChars _ _ _ h).2.2.1 "alex"⟩

/-! ## C5: dialogue extraction lemmas -/

lemma alpha_space_isLabelChar (x : Char) :
    (isAsciiAlpha x || x == ' ') = true → isLabelChar x = true := by
  intro h
  rcases Bool.or_eq_true_iff.1 h with h1 | h1
  · simp [isLabelChar, h1]
  · have : x = ' ' := by simpa using h1
    subst this
    decide

lemma alpha_space_ne_colon (x : Char) :
    (isAsciiAlpha x || x == ' ') = true → (x == ':') = false := by
  intro h
  cases hx : (x == ':')
  · rfl
  · have : x = ':' := by simpa using hx
    subst this
    exact absurd h (by decide)

lemma alpha_not_pyspace (c : Char) : isAsciiAlpha c = true → isPySpace c = false := by
  intro h
  cases hsp : isPySpace c
  · rfl
  · exfalso
    simp only [isPySpace, Bool.or_eq_true, beq_iff_eq] at hsp
    rcases hsp with ((((h1 | h1) | h1) | h1) | h1) | h1 <;> subst h1 <;>
      exact absurd h (by decide)

lemma not_pyspace_ne_newline (t : Char) : isPySpace t = false → (t == '\n') = false := by
  intro h
  cases ht : (t == '\n')
  · rfl
  · have : t = '\n' := by simpa using ht
    subst this
    exact absurd h (by decide)

lemma matchTail_render (t : Char) (ts rest : List Char)
    (ht : isPySpace t = false) (hT : ∀ x ∈ t :: ts, (x != '\n') = true) :
    matchTail (' ' :: ((t :: ts) ++ '\n' :: rest)) = some (t :: ts, '\n' :: rest) := by
  have hsp : isPySpace ' ' = true := by decide
  have htw : (' ' :: ((t :: ts) ++ '\n' :: rest)).takeWhile isPySpace = [' '] := by
    simp [List.takeWhile, hsp, ht]
  unfold matchTail
  rw [htw]
  show findTail (' ' :: ((t :: ts) ++ '\n' :: rest)) (0 + 1) = _
  have htf : tailFrom (' ' :: ((t :: ts) ++ '\n' :: rest)) 1 =
      some (t :: ts, '\n' :: rest) := by
    have hdrop : (' ' :: ((t :: ts) ++ '\n' :: rest)).drop 1 =
        t :: (ts ++ '\n' :: rest) := by simp
    unfold tailFrom
    rw [hdrop]
    have htn : (t == '\n') = false := not_pyspace_ne_newline t ht
    simp only [htn, Bool.false_eq_true, if_false]
    have h1 : List.takeWhile (fun x => x != '\n') ((t :: ts) ++ '\n' :: rest) =
        t :: ts := takeWhile_append_cons _ _ _ _ hT (by decide)
    have h2 : List.dropWhile (fun x => x != '\n') ((t :: ts) ++ '\n' :: rest) =
        '\n' :: rest := dropWhile_append_cons _ _ _ _ hT (by decide)
    simp only [List.cons_append] at h1 h2
    rw [h1, h2]
  unfold findTail
  rw [htf]

lemma tryLabel_colon_step (acc : List Char) (c : Char) (rest2 text after : List Char)
    (hc : isLabelChar c = true) (hmt : matchTail rest2 = some (text, after)) :
    tryLabel acc (c :: ':' :: rest2) = some (acc ++ [c], text, after) := by
  simp [tryLabel, hc, hmt]

lemma tryLabel_cons_step (acc : List Char) (c e : Char) (l : List Char)
    (hc : isLabelChar c = true) (he : (e == ':') = false) :
    tryLabel acc (c :: e :: l) = tryLabel (acc ++ [c]) (e :: l) := by
  simp only [tryLabel, hc, if_true, he, Bool.false_eq_true, if_false]

lemma tryLabel_render (t : Char) (ts rest' : List Char)
    (ht : isPySpace t = false) (hT : ∀ x ∈ t :: ts, (x != '\n') = true) :
    ∀ (cs acc : List Char), cs ≠ [] →
      (∀ x ∈ cs, (isAsciiAlpha x || x == ' ') = true) →
      tryLabel acc (cs ++ ':' :: ' ' :: ((t :: ts) ++ '\n' :: rest')) =
        some (acc ++ cs, t :: ts, '\n' :: rest') := by
  intro cs
  induction cs with
  | nil => intro acc h _; exact absurd rfl h
  | cons d cs' ih =>
    intro acc _ hclass
    have hd : isLabelChar d = true := alpha_space_isLabelChar d (hclass d (by simp))
    cases cs' with
    | nil =>
      have hmt := matchTail_render t ts rest' ht hT
      simp only [List.cons_append, List.nil_append]
      simp only [List.cons_append] at hmt
      exact tryLabel_colon_step acc d _ _ _ hd hmt
    | cons e cs'' =>
      have hene : (e == ':') = false :=
        alpha_space_ne_colon e (hclass e (by simp))
      simp only [List.cons_append]
      rw [tryLabel_cons_step acc d e _ hd hene]
      have hih := ih (acc ++ [d]) (by simp)
        (fun x hx => hclass x (by simp [List.mem_cons] at hx ⊢; tauto))
      simp only [List.cons_append] at hih
      rw [hih]
      simp

lemma matchAt_render (c : Char) (cs : List Char) (t : Char) (ts rest' : List Char)
    (hc : isAsciiAlpha c = true) (hcs : cs ≠ [])
    (hclass : ∀ x ∈ cs, (isAsciiAlpha x || x == ' ') = true)
    (ht : isPySpace t = false) (hT : ∀ x ∈ t :: ts, (x != '\n') = true) :
    matchAt ((c :: cs) ++ ':' :: ' ' :: ((t :: ts) ++ '\n' :: rest')) =
      some (c :: cs, t :: ts, '\n' :: rest') := by
  have htl := tryLabel_render t ts rest' ht hT cs [] hcs hclass
  simp only [List.cons_append]
  simp only [List.cons_append] at htl
  simp [matchAt, hc, htl]

lemma scanAux_match_cons (f : Nat) (c : Char) (rest lab text after : List Char)
    (hm : matchAt (c :: rest) = some (lab, text, after)) :
    scanAux (f + 1) (c :: rest) true = (lab, text) :: scanAux f after false := by
  show (match matchAt (c :: rest) with
        | some (lab, text, after) => (lab, text) :: scanAux f after false
        | none => scanAux f rest (c == '\n')) =
      (lab, text) :: scanAux f after false
  rw [hm]

lemma scanAux_newline_skip (g : Nat) (R : List Char) :
    scanAux (g + 1) ('\n' :: R) false = scanAux g R true := rfl

lemma scanAux_render :
    ∀ ps : List (String × String), (∀ p ∈ ps, wellFormedPair p = true) →
      ∀ fuel : Nat, (renderScript ps).length ≤ fuel →
      scanAux fuel (renderScript ps) true = ps.map (fun p => (p.1.data, p.2.data)) := by
  intro ps
  induction ps with
  | nil =>
    intro _ fuel _
    show scanAux fuel [] true = []
    cases fuel <;> rfl
  | cons p tl ih =>
    intro hwf fuel hfuel
    have hp := hwf p (by simp)
    unfold wellFormedPair at hp
    cases hd1 : p.1.data with
    | nil => rw [hd1] at hp; simp at hp
    | cons c cs1 =>
      cases cs1 with
      | nil => rw [hd1] at hp; simp at hp
      | cons d cs =>
        cases hd2 : p.2.data with
        | nil => rw [hd1, hd2] at hp; simp at hp
        | cons t ts =>
          rw [hd1, hd2] at hp
          simp only [Bool.and_eq_true, List.all_eq_true] at hp
          obtain ⟨⟨hc, hclass⟩, hts, hTne⟩ := hp
          have ht : isPySpace t = false := by
            have := hts
            simp only [Bool.not_eq_true'] at this
            exact this
          have hrender : renderScript (p :: tl) =
              (c :: (d :: cs)) ++ ':' :: ' ' ::
                ((t :: ts) ++ '\n' :: renderScript tl) := by
            show renderPair p ++ renderScript tl = _
            unfold renderPair
            rw [hd1, hd2]
            simp
          rw [hrender] at hfuel ⊢
          have hlen := hfuel
          simp only [List.length_append, List.length_cons] at hlen
          obtain ⟨f, rfl⟩ : ∃ f, fuel = f + 1 := by
            cases fuel with
            | zero => omega
            | succ f => exact ⟨f, rfl⟩
          have hmat := matchAt_render c (d :: cs) t ts (renderScript tl) hc
            (by simp) hclass ht hTne
          simp only [List.cons_append]
          simp only [List.cons_append] at hmat
          rw [scanAux_match_cons f c _ _ _ _ hmat]
          obtain ⟨g, rfl⟩ : ∃ g, f = g + 1 := by
            cases f with
            | zero => omega
            | succ g => exact ⟨g, rfl⟩
          rw [scanAux_newline_skip]
          rw [ih (fun q hq => hwf q (by simp [hq])) g (by omega)]
          simp [hd1, hd2]

lemma map_mk_data :
    ∀ ps : List (String × String),
      (ps.map (fun p => (p.1.data, p.2.data))).map
        (fun q => (String.mk q.1, String.mk q.2)) = ps := by
  intro ps
  induction ps with
  | nil => rfl
  | cons p tl ih =>
    obtain ⟨a, b⟩ := p
    obtain ⟨la⟩ := a
    obtain ⟨lb⟩ := b
    simp [ih]

/-- C5 counterexample.  The claim's matching rule covers every label made
of letters and spaces, but the regex `[A-Za-z][A-Za-z\s]+?` requires at
least two label characters: a single-letter label such as `A` in
`"A: hi\n"` produces no entry at all. -/
theorem c5_counterexample :
    dialogueExtract "A: hi\n" = [] ∧ dialogueExtract "A: hi\n" ≠ [("A", "hi")] := by
  constructor
  · decide
  · decide

/-- C5 (amended).  For every script rendered from well-formed
(label, text) lines — label an ASCII letter followed by at least one more
letter or space (two characters minimum), text non-empty, newline-free
and not starting with whitespace — the extraction returns exactly those
(label, text) pairs in order.  Leading whitespace of the text is trimmed
by the `\s*` of the pattern; trailing whitespace is preserved, not
trimmed. -/
theorem c5_extraction_of_wellformed_script :
    ∀ ps : List (String × String), (∀ p ∈ ps, wellFormedPair p = true) →
      dialogueExtract (String.mk (renderScript ps)) = ps := by
  intro ps hwf
  unfold dialogueExtract
  show (scanAux (renderScript ps).length (renderScript ps) true).map
      (fun p => (String.mk p.1, String.mk p.2)) = ps
  rw [scanAux_render ps hwf _ (le_refl _)]
  exact map_mk_data ps

/-- C5 witness: the amended theorem instantiated at the spec's concrete
example, whose rendering is exactly `"Alex: Hi there\nJamie: Hello!\n"`. -/
theorem c5_extraction_of_wellformed_script_witness :
    (wellFormedPair ("Alex", "Hi there") = true ∧
      wellFormedPair ("Jamie", "Hello!") = true) ∧
    dialogueExtract "Alex: Hi there\nJamie: Hello!\n" =
      [("Alex", "Hi there"), ("Jamie", "Hello!")] := by
  refine ⟨⟨by decide, by decide⟩, ?_⟩
  have h := c5_extraction_of_wellformed_script
    [("Alex", "Hi there"), ("Jamie", "Hello!")]
    (by intro p hp; fin_cases hp <;> decide)
  exact h

/-! ## Soundness of the synthesis stage's voice lookup

Every label produced by the extractor begins with an ASCII letter, so the
first-name key of a dialogue line always exists: the `none` arm of
`stageVoice` (where Python would raise `IndexError`) is unreachable for
extractor output. -/

lemma matchAt_some_shape :
    ∀ (l lab text after : List Char), matchAt l = some (lab, text, after) →
      ∃ c lab2, lab = c :: lab2 ∧ isAsciiAlpha c = true := by
  intro l lab text after h
  cases l with
  | nil => exact Option.noConfusion h
  | cons c rest =>
    by_cases hc : isAsciiAlpha c = true
    · simp only [matchAt, hc, if_true] at h
      cases htl : tryLabel [] rest with
      | none => rw [htl] at h; exact Option.noConfusion h
      | some tri =>
        obtain ⟨l1, t1, a1⟩ := tri
        rw [htl] at h
        simp only [Option.some.injEq, Prod.mk.injEq] at h
        exact ⟨c, l1, h.1.symm, hc⟩
    · simp only [matchAt] at h
      rw [if_neg hc] at h
      exact Option.noConfusion h

lemma scanAux_label_alpha :
    ∀ (fuel : Nat) (l : List Char) (b : Bool) (pr : List Char × List Char),
      pr ∈ scanAux fuel l b → ∃ c cs, pr.1 = c :: cs ∧ isAsciiAlpha c = true := by
  intro fuel
  induction fuel with
  | zero => intro l b pr h; simp [scanAux] at h
  | succ f ih =>
    intro l b pr h
    cases l with
    | nil => simp [scanAux] at h
    | cons c rest =>
      cases b with
      | false =>
        have hstep : scanAux (f + 1) (c :: rest) false = scanAux f rest (c == '\n') := rfl
        rw [hstep] at h
        exact ih _ _ _ h
      | true =>
        cases hm : matchAt (c :: rest) with
        | none =>
          have hstep : scanAux (f + 1) (c :: rest) true = scanAux f rest (c == '\n') := by
            show (match matchAt (c :: rest) with
                  | some (lab, text, after) => (lab, text) :: scanAux f after false
                  | none => scanAux f rest (c == '\n')) = scanAux f rest (c == '\n')
            rw [hm]
          rw [hstep] at h
          exact ih _ _ _ h
        | some tri =>
          obtain ⟨lab, text, after⟩ := tri
          rw [scanAux_match_cons f c rest lab text after hm] at h
          rcases List.mem_cons.1 h with rfl | h
          · exact matchAt_some_shape _ _ _ _ hm
          · exact ih _ _ _ h

lemma dropWhile_append_singleton (p : Char → Bool) (c : Char) (hc : p c = false) :
    ∀ xs : List Char, ∃ ys, List.dropWhile p (xs ++ [c]) = ys ++ [c] := by
  intro xs
  induction xs with
  | nil => exact ⟨[], by simp [List.dropWhile, hc]⟩
  | cons x xs2 ih =>
    by_cases hx : p x = true
    · obtain ⟨ys, hys⟩ := ih
      exact ⟨ys, by simp [List.dropWhile, hx, hys]⟩
    · refine ⟨x :: xs2, ?_⟩
      have hx2 : p x = false := eq_false_of_ne_true hx
      simp [List.dropWhile, hx2]

lemma pyStripChars_cons_alpha (c : Char) (cs : List Char) (hc : isAsciiAlpha c = true) :
    ∃ l2, pyStripChars (c :: cs) = c :: l2 := by
  have hcsp : isPySpace c = false := alpha_not_pyspace c hc
  unfold pyStripChars
  have h1 : List.dropWhile isPySpace (c :: cs) = c :: cs := by
    simp [List.dropWhile, hcsp]
  rw [h1]
  unfold dropTrailing
  have h2 : (c :: cs).reverse = cs.reverse ++ [c] := by simp
  rw [h2]
  obtain ⟨ys, hys⟩ := dropWhile_append_singleton isPySpace c hcsp cs.reverse
  rw [hys]
  exact ⟨ys.reverse, by simp⟩

lemma firstKeyOpt_of_extract :
    ∀ (s : String) (p : String × String), p ∈ dialogueExtract s →
      (firstKeyOpt p.1).isSome = true := by
  intro s p hp
  unfold dialogueExtract at hp
  rw [List.mem_map] at hp
  obtain ⟨q, hq, rfl⟩ := hp
  obtain ⟨c, cs, hq1, hc⟩ := scanAux_label_alpha _ _ _ q hq
  show (firstKeyOpt (String.mk q.1)).isSome = true
  rw [hq1]
  unfold firstKeyOpt
  have hdata : (String.mk (c :: cs)).data = c :: cs := rfl
  rw [hdata]
  obtain ⟨l2, hl2⟩ := pyStripChars_cons_alpha c cs hc
  rw [hl2]
  have hcns : (!isPySpace c) = true := by rw [alpha_not_pyspace c hc]; rfl
  simp [List.takeWhile, hcns]

end Podcast
